import Mathlib

set_option autoImplicit false

/-!
Verification development for the `regis` repository.

The only source file, `src/regis/swift/Regis/Bridge/Connection.h`, declares two
plain C structs, `IPv4Connection` and `IPv6Connection`, with no behaviour.
The first part of this file embeds those declarations.  The second part models
the `AddressValue` conversion utility that the specification describes for
this header (the specification itself marks it as the minimal component
extractable from the fragment); those definitions carry a
`Modelled from the spec:` doc comment.
-/

/-! ### Embedding of Connection.h -/

/-- One C `char[4]` array field as declared in `IPv6Connection`; each cell
stores one byte of object representation (value 0..255). -/
structure CharArray4 where
  c0 : Fin 256
  c1 : Fin 256
  c2 : Fin 256
  c3 : Fin 256
  deriving DecidableEq

/-- The bytes of a `char[4]` field, in declaration order. -/
def CharArray4.toBytes (x : CharArray4) : List Nat :=
  [x.c0.val, x.c1.val, x.c2.val, x.c3.val]

/-- The `IPv4Connection` struct of Connection.h: exactly four
`unsigned char` fields `a`, `b`, `c`, `d`. -/
structure IPv4Connection where
  a : Fin 256
  b : Fin 256
  c : Fin 256
  d : Fin 256
  deriving DecidableEq

/-- The `IPv6Connection` struct of Connection.h: eight `char[4]` fields
`a` .. `h`. -/
structure IPv6Connection where
  a : CharArray4
  b : CharArray4
  c : CharArray4
  d : CharArray4
  e : CharArray4
  f : CharArray4
  g : CharArray4
  h : CharArray4
  deriving DecidableEq

/-- The address payload of an `IPv4Connection`: its fields in order. -/
def IPv4Connection.payloadBytes (v : IPv4Connection) : List Nat :=
  [v.a.val, v.b.val, v.c.val, v.d.val]

/-- The address payload of an `IPv6Connection`: the bytes of its eight
`char[4]` fields `a` .. `h`, flattened in declaration order. -/
def IPv6Connection.payloadBytes (v : IPv6Connection) : List Nat :=
  v.a.toBytes ++ v.b.toBytes ++ v.c.toBytes ++ v.d.toBytes ++
  v.e.toBytes ++ v.f.toBytes ++ v.g.toBytes ++ v.h.toBytes

/-- An all-zero `char[4]` field. -/
def zeroArray4 : CharArray4 := ⟨0, 0, 0, 0⟩

/-- A concrete `IPv6Connection` value (all bytes zero). -/
def ipv6Zero : IPv6Connection :=
  ⟨zeroArray4, zeroArray4, zeroArray4, zeroArray4,
   zeroArray4, zeroArray4, zeroArray4, zeroArray4⟩

/-- Whether the C type `char` is signed is implementation-defined; an
implementation fixes one of the two choices. -/
inductive CharSignedness
  | signed
  | unsigned
  deriving DecidableEq

/-- Reading a stored object-representation byte back through a C `char`
lvalue: under a signed `char` the byte is reinterpreted in two's complement,
under an unsigned `char` it is returned as is.  `unsigned char` fields always
read back as the second case. -/
def charReadback : CharSignedness → Nat → Int
  | CharSignedness.signed, b => if b < 128 then (b : Int) else (b : Int) - 256
  | CharSignedness.unsigned, b => (b : Int)

/-- Values obtained by reading the `char` fields of an `IPv6Connection`
under a given implementation choice for the signedness of `char`. -/
def IPv6Connection.readback (impl : CharSignedness) (v : IPv6Connection) :
    List Int :=
  v.payloadBytes.map (charReadback impl)

/-- Values obtained by reading the `unsigned char` fields of an
`IPv4Connection`; `unsigned char` is unsigned in every implementation. -/
def IPv4Connection.readback (v : IPv4Connection) : List Int :=
  v.payloadBytes.map (charReadback CharSignedness.unsigned)

/-- A concrete `IPv6Connection` whose first stored byte is 200 (> 127). -/
def ipv6HighByte : IPv6Connection :=
  { ipv6Zero with a := ⟨200, 0, 0, 0⟩ }

/-! ### The AddressValue utility, modelled from the specification

The repository contains no implementation of this component: the header only
declares byte layouts.  The specification (sections 2-8) defines the intended
`AddressValue` value type and its conversions; the definitions below follow
its words. -/

/-- Modelled from the spec: the missing discriminant of `AddressValue`,
`V4` or `V6`. -/
inductive Tag
  | V4
  | V6
  deriving DecidableEq

/-- Modelled from the spec: the two error kinds of the missing conversion
layer, `InvalidLength` and `ParseError`. -/
inductive AddrError
  | InvalidLength
  | ParseError
  deriving DecidableEq

/-- Modelled from the spec: the missing `AddressValue` type, a tag plus the
address bytes in network order. -/
structure AddressValue where
  tag : Tag
  bytes : List Nat
  deriving DecidableEq

/-- Modelled from the spec: the byte length that each tag requires, 4 for
`V4` and 16 for `V6`. -/
def expectedLength : Tag → Nat
  | Tag.V4 => 4
  | Tag.V6 => 16

/-- Modelled from the spec: the missing `fromBytes(tag, bytes)` constructor;
fails with `InvalidLength` when the byte count does not match the tag. -/
def fromBytes (t : Tag) (b : List Nat) : Except AddrError AddressValue :=
  if b.length = expectedLength t then Except.ok ⟨t, b⟩
  else Except.error AddrError.InvalidLength

/-- Modelled from the spec: the missing `toBytes()` accessor, returning the
raw byte sequence in network order. -/
def AddressValue.toBytes (v : AddressValue) : List Nat := v.bytes

/-- Whether a character is a decimal digit. -/
def isDigit (c : Char) : Bool :=
  decide ('0'.toNat ≤ c.toNat) && decide (c.toNat ≤ '9'.toNat)

/-- The numeric value of a string of decimal digits. -/
def decimalValue (cs : List Char) : Nat :=
  cs.foldl (fun acc c => acc * 10 + (c.toNat - '0'.toNat)) 0

/-- Modelled from the spec: parsing one decimal octet of the missing
dotted-quad grammar; digits only, no leading zero, value at most 255. -/
def parseOctet? (cs : List Char) : Option Nat :=
  if cs ≠ [] ∧ cs.all isDigit then
    if 2 ≤ cs.length ∧ cs.head? = some '0' then none
    else if decimalValue cs ≤ 255 then some (decimalValue cs) else none
  else none

/-- Whether a character is a hexadecimal digit. -/
def isHexDigit (c : Char) : Bool :=
  (decide ('0'.toNat ≤ c.toNat) && decide (c.toNat ≤ '9'.toNat)) ||
  (decide ('a'.toNat ≤ c.toNat) && decide (c.toNat ≤ 'f'.toNat)) ||
  (decide ('A'.toNat ≤ c.toNat) && decide (c.toNat ≤ 'F'.toNat))

/-- The numeric value of one hexadecimal digit. -/
def hexDigitValue (c : Char) : Nat :=
  if '0'.toNat ≤ c.toNat ∧ c.toNat ≤ '9'.toNat then c.toNat - '0'.toNat
  else if 'a'.toNat ≤ c.toNat ∧ c.toNat ≤ 'f'.toNat then
    c.toNat - 'a'.toNat + 10
  else c.toNat - 'A'.toNat + 10

/-- The numeric value of a string of hexadecimal digits. -/
def hexValue (cs : List Char) : Nat :=
  cs.foldl (fun acc c => acc * 16 + hexDigitValue c) 0

/-- Modelled from the spec: parsing one hextet of the missing colon-hex
grammar; hex digits only, value at most 0xFFFF. -/
def parseHextet? (cs : List Char) : Option Nat :=
  if cs ≠ [] ∧ cs.all isHexDigit then
    if hexValue cs ≤ 65535 then some (hexValue cs) else none
  else none

/-- Splitting a character list on a separator; `n` separators yield `n + 1`
groups, empty groups included. -/
def splitOnChar (sep : Char) : List Char → List (List Char)
  | [] => [[]]
  | c :: rest =>
    let r := splitOnChar sep rest
    if c = sep then [] :: r
    else
      match r with
      | [] => [[c]]
      | g :: gs => (c :: g) :: gs

/-- The number of (possibly overlapping) `::` occurrences in a character
list; a sound detector for more than one elision, since `:::` counts twice. -/
def countDoubleColon : List Char → Nat
  | ':' :: ':' :: rest => countDoubleColon (':' :: rest) + 1
  | _ :: rest => countDoubleColon rest
  | [] => 0

/-- The characters before and after the first `::` occurrence. -/
def splitFirstDoubleColon : List Char → List Char × List Char
  | ':' :: ':' :: rest => ([], rest)
  | c :: rest =>
    let p := splitFirstDoubleColon rest
    (c :: p.1, p.2)
  | [] => ([], [])

/-- Applying a fallible function to every element, failing when any element
fails. -/
def mapOption {α β : Type} (f : α → Option β) : List α → Option (List β)
  | [] => some []
  | a :: t =>
    match f a, mapOption f t with
    | some b, some bs => some (b :: bs)
    | _, _ => none

/-- Modelled from the spec: the missing dotted-quad parse, four decimal
octets 0-255 separated by dots; yields the four address bytes. -/
def parseV4? (cs : List Char) : Option (List Nat) :=
  let parts := splitOnChar '.' cs
  if parts.length = 4 then mapOption parseOctet? parts else none

/-- Modelled from the spec: the missing colon-hex parse, up to eight hextets
with at most one `::` elision; yields the eight hextet values. -/
def parseV6? (cs : List Char) : Option (List Nat) :=
  if countDoubleColon cs = 0 then
    let groups := splitOnChar ':' cs
    if groups.length = 8 then mapOption parseHextet? groups else none
  else if countDoubleColon cs = 1 then
    let p := splitFirstDoubleColon cs
    let lgroups := if p.1 = [] then [] else splitOnChar ':' p.1
    let rgroups := if p.2 = [] then [] else splitOnChar ':' p.2
    match mapOption parseHextet? lgroups, mapOption parseHextet? rgroups with
    | some ls, some rs =>
      if ls.length + rs.length ≤ 7 then
        some (ls ++ List.replicate (8 - (ls.length + rs.length)) 0 ++ rs)
      else none
    | _, _ => none
  else none

/-- The network-order bytes of a hextet list: high byte before low byte. -/
def hextetsToBytes : List Nat → List Nat
  | [] => []
  | h :: t => h / 256 :: h % 256 :: hextetsToBytes t

/-- Modelled from the spec: the missing `fromText(text)` constructor;
dotted-quad parsing is attempted first, then colon-hex, and `ParseError` is
returned when neither grammar matches. -/
def fromText (s : String) : Except AddrError AddressValue :=
  match parseV4? s.data with
  | some bs => Except.ok ⟨Tag.V4, bs⟩
  | none =>
    match parseV6? s.data with
    | some hs => Except.ok ⟨Tag.V6, hextetsToBytes hs⟩
    | none => Except.error AddrError.ParseError

/-- The character of one digit value: decimal 0-9, then lowercase hex. -/
def digitChar (n : Nat) : Char :=
  if n < 10 then Char.ofNat ('0'.toNat + n)
  else Char.ofNat ('a'.toNat + (n - 10))

/-- Modelled from the spec: the missing canonical decimal form of one octet
(value below 256), with no leading zeros. -/
def octetChars (n : Nat) : List Char :=
  if n < 10 then [digitChar n]
  else if n < 100 then [digitChar (n / 10), digitChar (n % 10)]
  else [digitChar (n / 100), digitChar (n / 10 % 10), digitChar (n % 10)]

/-- Modelled from the spec: the missing canonical lowercase hex form of one
hextet (value below 0x10000), with no leading zeros. -/
def hextetChars (n : Nat) : List Char :=
  if n < 16 then [digitChar n]
  else if n < 256 then [digitChar (n / 16), digitChar (n % 16)]
  else if n < 4096 then
    [digitChar (n / 256), digitChar (n / 16 % 16), digitChar (n % 16)]
  else
    [digitChar (n / 4096), digitChar (n / 256 % 16), digitChar (n / 16 % 16),
      digitChar (n % 16)]

/-- Joining groups of characters with a separator between them. -/
def joinWith (sep : Char) : List (List Char) → List Char
  | [] => []
  | [g] => g
  | g :: gs => g ++ sep :: joinWith sep gs

/-- The hextets of a network-order byte list: high byte before low byte. -/
def bytesToHextets : List Nat → List Nat
  | hi :: lo :: rest => (hi * 256 + lo) :: bytesToHextets rest
  | _ => []

/-- The length of the run of zeros of `hs` that starts at index `s` (0 when
the element there is missing or nonzero). -/
def runLenAt : List Nat → Nat → Nat
  | [], _ => 0
  | h :: t, 0 => if h = 0 then runLenAt t 0 + 1 else 0
  | _ :: t, s + 1 => runLenAt t s

/-- The candidate among `b` and the members of `l` (scanned left to right)
that maximises `f`, keeping the earlier candidate on ties. -/
def pickBest (f : Nat → Nat) : Nat → List Nat → Nat
  | b, [] => b
  | b, i :: t => pickBest f (if f b < f i then i else b) t

/-- The start index of the longest zero run of `hs`, ties broken toward the
leftmost run. -/
def bestRunStart (hs : List Nat) : Nat :=
  pickBest (runLenAt hs) 0 (List.range hs.length)

/-- Modelled from the spec: the missing choice of the single longest run of
zero hextets (leftmost on ties), as start index and length. -/
def longestZeroRun (hs : List Nat) : Nat × Nat :=
  (bestRunStart hs, runLenAt hs (bestRunStart hs))

/-- Modelled from the spec: the missing canonical lowercase colon-hex text
of a V6 byte payload, with the single longest run of at least two zero
hextets collapsed to `::` (standard canonical form). -/
def v6Text (bytes : List Nat) : List Char :=
  let hs := bytesToHextets bytes
  let p := longestZeroRun hs
  if 2 ≤ p.2 then
    joinWith ':' ((hs.take p.1).map hextetChars) ++
      ':' :: ':' :: joinWith ':' ((hs.drop (p.1 + p.2)).map hextetChars)
  else joinWith ':' (hs.map hextetChars)

/-- Modelled from the spec: the missing `toText()` serializer, canonical
decimal-dotted for V4 and canonical lowercase colon-hex for V6. -/
def AddressValue.toText (v : AddressValue) : String :=
  match v.tag with
  | Tag.V4 => String.mk (joinWith '.' (v.bytes.map octetChars))
  | Tag.V6 => String.mk (v6Text v.bytes)

/-- The data invariant of `AddressValue` stated by the specification: the
byte count matches the tag and every byte is an octet. -/
def Valid (v : AddressValue) : Prop :=
  v.bytes.length = expectedLength v.tag ∧ ∀ x ∈ v.bytes, x < 256

/-- `hs` has a run of `l` zeros starting at index `s`. -/
def isZeroRun (hs : List Nat) (s l : Nat) : Prop :=
  s + l ≤ hs.length ∧ ∀ i < l, hs.getD (s + i) 1 = 0

/-! ### Theorems about Connection.h -/

/-- C1 (counterexample): at a concrete value, the eight nested `char[4]`
fields of `IPv6Connection` flatten to 32 bytes, not the 16 bytes the claim
states for an IPv6 address payload. -/
theorem c1_counterexample :
    (IPv6Connection.payloadBytes ipv6Zero).length = 32 ∧
      (IPv6Connection.payloadBytes ipv6Zero).length ≠ 16 := by
  constructor
  · rfl
  · decide

/-- C1 (amended): the eight nested 4-byte group fields `a`..`h` of the
`IPv6Connection` struct collectively hold 8 × 4 = 32 bytes, so the struct's
address payload totals 32 octets, not the 16 octets of one contiguous raw
IPv6 address. -/
theorem c1_payload_is_32_bytes (v : IPv6Connection) :
    v.payloadBytes.length = 32 := by
  simp [IPv6Connection.payloadBytes, CharArray4.toBytes]

/-- Witness for `c1_payload_is_32_bytes` at a concrete value. -/
theorem c1_payload_is_32_bytes_witness :
    (IPv6Connection.payloadBytes ipv6Zero).length = 32 :=
  c1_payload_is_32_bytes ipv6Zero

/-- C9: an `IPv4Connection` carries exactly 4 bytes of address data, each an
unsigned 8-bit value, and the four fields `a`, `b`, `c`, `d` are all it
stores: two values agreeing on them are equal. -/
theorem c9_ipv4_exactly_four_octets :
    (∀ v : IPv4Connection,
        v.payloadBytes.length = 4 ∧ ∀ x ∈ v.payloadBytes, x < 256) ∧
      ∀ v w : IPv4Connection,
        v.a = w.a → v.b = w.b → v.c = w.c → v.d = w.d → v = w := by
  constructor
  · intro v
    refine ⟨rfl, ?_⟩
    intro x hx
    simp [IPv4Connection.payloadBytes] at hx
    rcases hx with h | h | h | h <;> (subst h; exact (Fin.isLt _))
  · intro v w ha hb hc hd
    cases v; cases w
    simp_all

/-- Witness for `c9_ipv4_exactly_four_octets` at concrete values. -/
theorem c9_ipv4_exactly_four_octets_witness :
    (IPv4Connection.mk 10 20 30 40) = IPv4Connection.mk 10 20 30 40 :=
  c9_ipv4_exactly_four_octets.2 ⟨10, 20, 30, 40⟩ ⟨10, 20, 30, 40⟩
    rfl rfl rfl rfl

/-- C10: the `IPv6Connection` fields are plain `char`, whose signedness is
implementation-defined, so a stored octet above 127 is not guaranteed to read
back nonnegative: under a signed-`char` implementation a concrete stored byte
200 reads back as −56.  The `unsigned char` fields of `IPv4Connection`, by
contrast, read back nonnegative under every implementation. -/
theorem c10_char_signedness :
    (∃ (impl : CharSignedness) (x : Nat),
        (IPv6Connection.payloadBytes ipv6HighByte).head? = some x ∧
          127 < x ∧
          (IPv6Connection.readback impl ipv6HighByte).head? =
            some (charReadback impl x) ∧
          charReadback impl x < 0) ∧
      ∀ (v : IPv4Connection) (y : Int), y ∈ v.readback → 0 ≤ y := by
  constructor
  · refine ⟨CharSignedness.signed, 200, ?_, by decide, ?_, by decide⟩
    · rfl
    · rfl
  · intro v y hy
    simp [IPv4Connection.readback, IPv4Connection.payloadBytes,
      charReadback] at hy
    rcases hy with h | h | h | h <;> (subst h; exact Int.ofNat_nonneg _)

/-- Witness for `c10_char_signedness` at a concrete value. -/
theorem c10_char_signedness_witness :
    (0 : Int) ≤ (200 : Int) :=
  c10_char_signedness.2 ⟨200, 0, 0, 0⟩ 200 (by decide)

/-! ### Theorems about the modelled AddressValue -/

/-- C2: for every tag and byte sequence of the matching length, `fromBytes`
succeeds and `toBytes` returns exactly the input sequence, whose length is
the one the tag determines. -/
theorem c2_bytes_round_trip (t : Tag) (b : List Nat)
    (hlen : b.length = expectedLength t) (_hoct : ∀ x ∈ b, x < 256) :
    ∃ v : AddressValue, fromBytes t b = Except.ok v ∧
      v.toBytes = b ∧ v.toBytes.length = expectedLength t := by
  refine ⟨⟨t, b⟩, ?_, rfl, hlen⟩
  simp [fromBytes, hlen]

/-- Witness for `c2_bytes_round_trip` at a concrete tag and sequence. -/
theorem c2_bytes_round_trip_witness :
    ∃ v : AddressValue, fromBytes Tag.V4 [10, 20, 30, 40] = Except.ok v ∧
      v.toBytes = [10, 20, 30, 40] ∧
      v.toBytes.length = expectedLength Tag.V4 :=
  c2_bytes_round_trip Tag.V4 [10, 20, 30, 40] (by decide) (by decide)

/-- C3: `fromBytes` fails with `InvalidLength` exactly when the byte count
does not match the tag; in particular a 3-byte input under `V4` fails so. -/
theorem c3_invalid_length :
    (∀ (t : Tag) (b : List Nat),
        fromBytes t b = Except.error AddrError.InvalidLength ↔
          b.length ≠ expectedLength t) ∧
      fromBytes Tag.V4 [1, 2, 3] = Except.error AddrError.InvalidLength := by
  constructor
  · intro t b
    unfold fromBytes
    split
    · next hl => simp [hl]
    · next hl => simp [hl]
  · rfl

/-- C7: the operations of the modelled `AddressValue` are deterministic and
total pure functions: equal inputs give equal results, `toText` twice gives
the same string, and every input yields a result. -/
theorem c7_operations_deterministic :
    (∀ (t : Tag) (b : List Nat) (r₁ r₂ : Except AddrError AddressValue),
        fromBytes t b = r₁ → fromBytes t b = r₂ → r₁ = r₂) ∧
      (∀ (s : String) (r₁ r₂ : Except AddrError AddressValue),
        fromText s = r₁ → fromText s = r₂ → r₁ = r₂) ∧
      (∀ v : AddressValue,
        v.toBytes = v.toBytes ∧ v.toText = v.toText ∧ v.tag = v.tag) ∧
      (∀ v : AddressValue, ∃ s : String, v.toText = s) ∧
      ∀ s : String, ∃ r : Except AddrError AddressValue, fromText s = r := by
  refine ⟨?_, ?_, ?_, ?_, ?_⟩
  · intro t b r₁ r₂ h₁ h₂; rw [← h₁, ← h₂]
  · intro s r₁ r₂ h₁ h₂; rw [← h₁, ← h₂]
  · intro v; exact ⟨rfl, rfl, rfl⟩
  · intro v; exact ⟨v.toText, rfl⟩
  · intro s; exact ⟨fromText s, rfl⟩

/-- Witness for `c7_operations_deterministic` at a concrete input. -/
theorem c7_operations_deterministic_witness :
    (Except.ok ⟨Tag.V4, [192, 168, 1, 1]⟩ : Except AddrError AddressValue) =
      Except.ok ⟨Tag.V4, [192, 168, 1, 1]⟩ :=
  c7_operations_deterministic.2.1 "192.168.1.1"
    (Except.ok ⟨Tag.V4, [192, 168, 1, 1]⟩)
    (Except.ok ⟨Tag.V4, [192, 168, 1, 1]⟩) rfl rfl

/-- C6: dotted-quad parsing rejects a decimal octet with a leading zero, and
inputs containing such an octet fail with `ParseError`. -/
theorem c6_leading_zero_rejected :
    (∀ cs : List Char, 2 ≤ cs.length → cs.head? = some '0' →
        parseOctet? cs = none) ∧
      fromText "192.168.01.1" = Except.error AddrError.ParseError ∧
      fromText "01.2.3.4" = Except.error AddrError.ParseError := by
  refine ⟨?_, rfl, rfl⟩
  intro cs hlen hhead
  unfold parseOctet?
  split
  · simp [hlen, hhead]
  · rfl

/-- Witness for `c6_leading_zero_rejected` at the octet text 01. -/
theorem c6_leading_zero_rejected_witness :
    parseOctet? ['0', '1'] = none :=
  c6_leading_zero_rejected.1 ['0', '1'] (by decide) (by decide)

/-- C4: `fromText` fails with `ParseError` exactly when the input matches
neither the dotted-quad grammar nor the colon-hex grammar (each of which
already bounds octets by 255 and hextets by 0xFFFF); more than one `::`
elision is rejected by the colon-hex parse, and the two concrete inputs of
the claim both fail. -/
theorem c4_parse_error_conditions :
    (∀ s : String,
        fromText s = Except.error AddrError.ParseError ↔
          parseV4? s.data = none ∧ parseV6? s.data = none) ∧
      (∀ cs : List Char, 2 ≤ countDoubleColon cs → parseV6? cs = none) ∧
      fromText "256.0.0.1" = Except.error AddrError.ParseError ∧
      fromText "::1::" = Except.error AddrError.ParseError := by
  refine ⟨?_, ?_, rfl, rfl⟩
  · intro s
    unfold fromText
    cases h4 : parseV4? s.data with
    | some bs => simp
    | none =>
      cases h6 : parseV6? s.data with
      | some hsx => simp [h6]
      | none => simp [h6]
  · intro cs h
    have h0 : ¬countDoubleColon cs = 0 := by omega
    have h1 : ¬countDoubleColon cs = 1 := by omega
    unfold parseV6?
    simp [h0, h1]

/-- Witness for `c4_parse_error_conditions` at a doubly elided input. -/
theorem c4_parse_error_conditions_witness :
    parseV6? "::1::".data = none :=
  c4_parse_error_conditions.2.1 "::1::".data (by decide)

/-- `mapOption` preserves length. -/
theorem mapOption_length {α β : Type} (f : α → Option β) :
    ∀ (l : List α) (r : List β), mapOption f l = some r →
      r.length = l.length := by
  intro l
  induction l with
  | nil =>
    intro r h
    simp [mapOption] at h
    subst h
    rfl
  | cons a t ih =>
    intro r h
    simp only [mapOption] at h
    cases hfa : f a with
    | none => rw [hfa] at h; simp at h
    | some b =>
      rw [hfa] at h
      cases hmt : mapOption f t with
      | none => rw [hmt] at h; simp at h
      | some bs =>
        rw [hmt] at h
        simp at h
        subst h
        simp [ih bs hmt]

/-- Every output element of `mapOption` comes from an input element. -/
theorem mapOption_mem {α β : Type} (f : α → Option β) :
    ∀ (l : List α) (r : List β), mapOption f l = some r →
      ∀ b ∈ r, ∃ a ∈ l, f a = some b := by
  intro l
  induction l with
  | nil =>
    intro r h b hb
    simp [mapOption] at h
    subst h
    cases hb
  | cons a t ih =>
    intro r h b hb
    simp only [mapOption] at h
    cases hfa : f a with
    | none => rw [hfa] at h; simp at h
    | some b0 =>
      rw [hfa] at h
      cases hmt : mapOption f t with
      | none => rw [hmt] at h; simp at h
      | some bs =>
        rw [hmt] at h
        simp at h
        subst h
        rcases List.mem_cons.mp hb with rfl | hbs
        · exact ⟨a, by simp, hfa⟩
        · obtain ⟨a', ha', hfa'⟩ := ih bs hmt b hbs
          exact ⟨a', by simp [ha'], hfa'⟩

/-- A parsed octet is at most 255. -/
theorem parseOctet_le (cs : List Char) (n : Nat) :
    parseOctet? cs = some n → n ≤ 255 := by
  unfold parseOctet?
  split
  · split
    · simp
    · split
      · next hle =>
        intro h
        cases h
        exact hle
      · simp
  · simp

/-- A parsed hextet is at most 0xFFFF. -/
theorem parseHextet_le (cs : List Char) (n : Nat) :
    parseHextet? cs = some n → n ≤ 65535 := by
  unfold parseHextet?
  split
  · split
    · next hle =>
      intro h
      cases h
      exact hle
    · simp
  · simp

/-- A successful dotted-quad parse yields four octet values. -/
theorem parseV4_valid (cs : List Char) (bs : List Nat)
    (h : parseV4? cs = some bs) : bs.length = 4 ∧ ∀ x ∈ bs, x < 256 := by
  simp only [parseV4?] at h
  split at h
  · next hlen =>
    constructor
    · rw [mapOption_length _ _ _ h, hlen]
    · intro x hx
      obtain ⟨a, _, hfa⟩ := mapOption_mem _ _ _ h x hx
      have := parseOctet_le a x hfa
      omega
  · cases h

/-- A successful colon-hex parse yields exactly eight hextet values. -/
theorem parseV6_valid (cs : List Char) (hs : List Nat)
    (h : parseV6? cs = some hs) : hs.length = 8 ∧ ∀ x ∈ hs, x ≤ 65535 := by
  simp only [parseV6?] at h
  split at h
  · split at h
    · next hlen =>
      constructor
      · rw [mapOption_length _ _ _ h, hlen]
      · intro x hx
        obtain ⟨a, _, hfa⟩ := mapOption_mem _ _ _ h x hx
        exact parseHextet_le a x hfa
    · cases h
  · split at h
    · split at h
      · next ls rs hls hrs =>
        split at h
        · next htot =>
          cases h
          have hlsv : ∀ x ∈ ls, x ≤ 65535 := by
            intro x hx
            obtain ⟨a, _, hfa⟩ := mapOption_mem _ _ _ hls x hx
            exact parseHextet_le a x hfa
          have hrsv : ∀ x ∈ rs, x ≤ 65535 := by
            intro x hx
            obtain ⟨a, _, hfa⟩ := mapOption_mem _ _ _ hrs x hx
            exact parseHextet_le a x hfa
          constructor
          · simp [List.length_append, List.length_replicate]
            omega
          · intro x hx
            simp only [List.mem_append] at hx
            rcases hx with (hx | hx) | hx
            · exact hlsv x hx
            · have := List.eq_of_mem_replicate hx
              omega
            · exact hrsv x hx
        · cases h
      · cases h
    · cases h

/-- Bytes of hextets: twice as many. -/
theorem hextetsToBytes_length :
    ∀ hs : List Nat, (hextetsToBytes hs).length = 2 * hs.length := by
  intro hs
  induction hs with
  | nil => rfl
  | cons h t ih =>
    simp only [hextetsToBytes, List.length_cons, ih]
    omega

/-- Bytes of hextets are octets when every hextet is at most 0xFFFF. -/
theorem hextetsToBytes_lt :
    ∀ hs : List Nat, (∀ x ∈ hs, x ≤ 65535) →
      ∀ y ∈ hextetsToBytes hs, y < 256 := by
  intro hs
  induction hs with
  | nil => intro _ y hy; cases hy
  | cons h t ih =>
    intro hb y hy
    simp only [hextetsToBytes, List.mem_cons] at hy
    rcases hy with h1 | h1 | h1
    · subst h1
      have := hb h (by simp)
      omega
    · subst h1
      omega
    · exact ih (fun x hx => hb x (by simp [hx])) y h1

/-- C8: every `AddressValue` either constructor produces satisfies the data
invariant: the byte count matches the tag (4 for `V4`, 16 for `V6`) and each
byte is one octet; values are immutable, so the invariant persists. -/
theorem c8_constructor_invariant :
    (∀ (t : Tag) (b : List Nat) (v : AddressValue),
        (∀ x ∈ b, x < 256) → fromBytes t b = Except.ok v → Valid v) ∧
      ∀ (s : String) (v : AddressValue),
        fromText s = Except.ok v → Valid v := by
  constructor
  · intro t b v hb h
    unfold fromBytes at h
    split at h
    · next hlen =>
      injection h with h
      subst h
      exact ⟨hlen, hb⟩
    · cases h
  · intro s v h
    unfold fromText at h
    cases h4 : parseV4? s.data with
    | some bs =>
      rw [h4] at h
      injection h with h
      subst h
      obtain ⟨hlen, hlt⟩ := parseV4_valid _ _ h4
      exact ⟨hlen, hlt⟩
    | none =>
      rw [h4] at h
      cases h6 : parseV6? s.data with
      | some hsx =>
        rw [h6] at h
        injection h with h
        subst h
        obtain ⟨hlen, hle⟩ := parseV6_valid _ _ h6
        constructor
        · show (hextetsToBytes hsx).length = expectedLength Tag.V6
          rw [hextetsToBytes_length, hlen]
          decide
        · exact hextetsToBytes_lt hsx hle
      | none =>
        rw [h6] at h
        cases h

/-- Witness for `c8_constructor_invariant` at a concrete byte input. -/
theorem c8_constructor_invariant_witness :
    Valid ⟨Tag.V4, [10, 20, 30, 40]⟩ :=
  c8_constructor_invariant.1 Tag.V4 [10, 20, 30, 40]
    ⟨Tag.V4, [10, 20, 30, 40]⟩ (by decide) rfl

/-- The run measured by `runLenAt` stays inside the list. -/
theorem runLenAt_le :
    ∀ (hs : List Nat) (s : Nat), s ≤ hs.length →
      s + runLenAt hs s ≤ hs.length := by
  intro hs
  induction hs with
  | nil =>
    intro s hsle
    simp only [runLenAt]
    simp only [List.length_nil] at hsle ⊢
    omega
  | cons h t ih =>
    intro s hsle
    cases s with
    | zero =>
      simp only [runLenAt, List.length_cons]
      split
      · have := ih 0 (Nat.zero_le _)
        omega
      · omega
    | succ s' =>
      simp only [runLenAt, List.length_cons] at hsle ⊢
      have := ih s' (by omega)
      omega

/-- Every position inside the run measured by `runLenAt` holds a zero. -/
theorem runLenAt_zero :
    ∀ (hs : List Nat) (s i : Nat), i < runLenAt hs s →
      hs.getD (s + i) 1 = 0 := by
  intro hs
  induction hs with
  | nil =>
    intro s i hi
    simp only [runLenAt] at hi
    exact absurd hi (Nat.not_lt_zero i)
  | cons h t ih =>
    intro s i hi
    cases s with
    | zero =>
      simp only [runLenAt] at hi
      split at hi
      · next hz =>
        cases i with
        | zero => simpa [List.getD_cons_zero] using hz
        | succ i' =>
          have hzt := ih 0 i' (by omega)
          simpa [List.getD_cons_succ] using hzt
      · exact absurd hi (Nat.not_lt_zero i)
    | succ s' =>
      simp only [runLenAt] at hi
      have hg := ih s' i hi
      have hrw : s' + 1 + i = (s' + i) + 1 := by omega
      rw [hrw]
      simpa [List.getD_cons_succ] using hg

/-- `runLenAt` starting inside the list is itself a zero run. -/
theorem isZeroRun_runLenAt (hs : List Nat) (s : Nat) (hsle : s ≤ hs.length) :
    isZeroRun hs s (runLenAt hs s) :=
  ⟨runLenAt_le hs s hsle, fun i hi => runLenAt_zero hs s i hi⟩

/-- No zero run starting at `s` is longer than `runLenAt hs s`. -/
theorem isZeroRun_le_runLenAt :
    ∀ (hs : List Nat) (s l : Nat), isZeroRun hs s l → l ≤ runLenAt hs s := by
  intro hs
  induction hs with
  | nil =>
    intro s l hzr
    rcases hzr with ⟨hle, _⟩
    simp only [List.length_nil] at hle
    simp only [runLenAt]
    omega
  | cons h t ih =>
    intro s l hzr
    rcases hzr with ⟨hle, hz⟩
    cases s with
    | zero =>
      cases l with
      | zero => exact Nat.zero_le _
      | succ l' =>
        have h0 : h = 0 := by
          have := hz 0 (Nat.succ_pos l')
          simpa [List.getD_cons_zero] using this
        have ht : isZeroRun t 0 l' := by
          constructor
          · simp only [List.length_cons] at hle
            omega
          · intro i hi
            have := hz (i + 1) (by omega)
            simpa [List.getD_cons_succ] using this
        have := ih 0 l' ht
        subst h0
        simp only [runLenAt, if_pos]
        simp
        omega
    | succ s' =>
      have ht : isZeroRun t s' l := by
        constructor
        · simp only [List.length_cons] at hle
          omega
        · intro i hi
          have := hz i hi
          have hrw : s' + 1 + i = (s' + i) + 1 := by omega
          rw [hrw] at this
          simpa [List.getD_cons_succ] using this
      have := ih s' l ht
      simpa [runLenAt] using this

/-- `pickBest` returns the seed or a member of the candidate list. -/
theorem pickBest_mem (f : Nat → Nat) :
    ∀ (l : List Nat) (b : Nat), pickBest f b l = b ∨ pickBest f b l ∈ l := by
  intro l
  induction l with
  | nil => intro b; left; rfl
  | cons j t ih =>
    intro b
    simp only [pickBest]
    rcases ih (if f b < f j then j else b) with hc | hc
    · rw [hc]
      split
      · right
        simp
      · left
        rfl
    · right
      simp [hc]

/-- `pickBest` maximises `f` over the seed and the candidates. -/
theorem pickBest_ge (f : Nat → Nat) :
    ∀ (l : List Nat) (b : Nat),
      f b ≤ f (pickBest f b l) ∧ ∀ i ∈ l, f i ≤ f (pickBest f b l) := by
  intro l
  induction l with
  | nil =>
    intro b
    refine ⟨Nat.le_refl _, ?_⟩
    intro i hi
    cases hi
  | cons j t ih =>
    intro b
    simp only [pickBest]
    obtain ⟨ih1, ih2⟩ := ih (if f b < f j then j else b)
    constructor
    · refine le_trans ?_ ih1
      split
      · next hlt => exact Nat.le_of_lt hlt
      · exact Nat.le_refl _
    · intro i hi
      rcases List.mem_cons.mp hi with rfl | hit
      · refine le_trans ?_ ih1
        split
        · exact Nat.le_refl _
        · next hnlt => omega
      · exact ih2 i hit

/-- On a strictly increasing candidate list whose members bound the seed
from above, `pickBest` returns the earliest maximiser: everything scanned
before the result has a strictly smaller value of `f`. -/
theorem pickBest_leftmost (f : Nat → Nat) :
    ∀ (l : List Nat) (b : Nat),
      List.Pairwise (· < ·) l → (∀ x ∈ l, b ≤ x) →
        (∀ j ∈ l, j < pickBest f b l → f j < f (pickBest f b l)) ∧
          (b < pickBest f b l → f b < f (pickBest f b l)) := by
  intro l
  induction l with
  | nil =>
    intro b _ _
    refine ⟨?_, ?_⟩
    · intro j hj
      cases hj
    · intro hb
      simp only [pickBest] at hb
      exact absurd hb (Nat.lt_irrefl b)
  | cons i t ih =>
    intro b hpw hble
    have hpwt : List.Pairwise (· < ·) t := hpw.of_cons
    have hit : ∀ x ∈ t, i < x := fun x hx => List.rel_of_pairwise_cons hpw hx
    have hbi : b ≤ i := hble i (by simp)
    simp only [pickBest]
    by_cases hfb : f b < f i
    · rw [if_pos hfb]
      obtain ⟨ihA, ihB⟩ := ih i hpwt (fun x hx => Nat.le_of_lt (hit x hx))
      constructor
      · intro j hj hjlt
        rcases List.mem_cons.mp hj with rfl | hjt
        · exact ihB hjlt
        · exact ihA j hjt hjlt
      · intro _
        have h1 := (pickBest_ge f t i).1
        omega
    · rw [if_neg hfb]
      obtain ⟨ihA, ihB⟩ := ih b hpwt
        (fun x hx => le_trans hbi (Nat.le_of_lt (hit x hx)))
      constructor
      · intro j hj hjlt
        rcases List.mem_cons.mp hj with rfl | hjt
        · rcases pickBest_mem f t b with hm | hm
          · rw [hm] at hjlt
            omega
          · have hbres : b < pickBest f b t :=
              lt_of_le_of_lt hbi (hit _ hm)
            have h1 := ihB hbres
            omega
        · exact ihA j hjt hjlt
      · exact ihB

/-- The best run start lies inside (or at the end of) the list. -/
theorem bestRunStart_le (hs : List Nat) : bestRunStart hs ≤ hs.length := by
  unfold bestRunStart
  rcases pickBest_mem (runLenAt hs) (List.range hs.length) 0 with hm | hm
  · rw [hm]
    exact Nat.zero_le _
  · exact Nat.le_of_lt (List.mem_range.mp hm)

/-- The pair `longestZeroRun` returns is a zero run of the list. -/
theorem longestZeroRun_isZeroRun (hs : List Nat) :
    isZeroRun hs (longestZeroRun hs).1 (longestZeroRun hs).2 :=
  isZeroRun_runLenAt hs (bestRunStart hs) (bestRunStart_le hs)

/-- No zero run of the list is longer than the one `longestZeroRun` picks. -/
theorem longestZeroRun_maximal (hs : List Nat) (s l : Nat)
    (h : isZeroRun hs s l) : l ≤ (longestZeroRun hs).2 := by
  have h1 := isZeroRun_le_runLenAt hs s l h
  rcases Nat.eq_zero_or_pos l with h0 | hpos
  · subst h0
    exact Nat.zero_le _
  · have hslen : s < hs.length := by
      rcases h with ⟨hle, _⟩
      omega
    have h2 := (pickBest_ge (runLenAt hs) (List.range hs.length) 0).2 s
      (List.mem_range.mpr hslen)
    simp only [longestZeroRun, bestRunStart]
    omega

/-- Among the zero runs of maximal length, `longestZeroRun` picks the
leftmost one. -/
theorem longestZeroRun_leftmost (hs : List Nat) (s : Nat)
    (h : isZeroRun hs s (longestZeroRun hs).2)
    (_hpos : 0 < (longestZeroRun hs).2) :
    (longestZeroRun hs).1 ≤ s := by
  by_contra hlt
  push_neg at hlt
  have hsr : s ∈ List.range hs.length :=
    List.mem_range.mpr (lt_of_lt_of_le hlt (bestRunStart_le hs))
  have hlt' : s < pickBest (runLenAt hs) 0 (List.range hs.length) := hlt
  have hlm := (pickBest_leftmost (runLenAt hs) (List.range hs.length) 0
    (List.pairwise_lt_range hs.length) (fun x _ => Nat.zero_le x)).1 s hsr hlt'
  have h1 := isZeroRun_le_runLenAt hs s (longestZeroRun hs).2 h
  simp only [longestZeroRun, bestRunStart] at h1
  omega

/-- C5: `toText` yields the canonical decimal-dotted text for V4 and the
canonical lowercase colon-hex text for V6, where the collapsed `::` run is a
zero run of the hextets, no zero run is longer, and ties go to the leftmost
run; the two concrete round trips of the claim hold. -/
theorem c5_canonical_text :
    ((fromText "192.168.1.1").map AddressValue.toText =
        Except.ok "192.168.1.1") ∧
      ((fromText "2001:0db8:0000:0000:0000:0000:0000:0001").map
          AddressValue.toText = Except.ok "2001:db8::1") ∧
      ∀ v : AddressValue, v.tag = Tag.V6 →
        isZeroRun (bytesToHextets v.bytes)
            (longestZeroRun (bytesToHextets v.bytes)).1
            (longestZeroRun (bytesToHextets v.bytes)).2 ∧
          (∀ s l : Nat, isZeroRun (bytesToHextets v.bytes) s l →
            l ≤ (longestZeroRun (bytesToHextets v.bytes)).2) ∧
          (∀ s : Nat, isZeroRun (bytesToHextets v.bytes) s
              (longestZeroRun (bytesToHextets v.bytes)).2 →
            0 < (longestZeroRun (bytesToHextets v.bytes)).2 →
            (longestZeroRun (bytesToHextets v.bytes)).1 ≤ s) ∧
          v.toText = String.mk (v6Text v.bytes) := by
  refine ⟨by rfl, by rfl, ?_⟩
  intro v hv
  refine ⟨longestZeroRun_isZeroRun _,
    fun s l h => longestZeroRun_maximal _ s l h,
    fun s h hp => longestZeroRun_leftmost _ s h hp, ?_⟩
  unfold AddressValue.toText
  rw [hv]

/-- Witness for `c5_canonical_text` at a concrete V6 value. -/
theorem c5_canonical_text_witness :
    isZeroRun
      (bytesToHextets [32, 1, 13, 184, 0, 0, 0, 0, 0, 0, 0, 0, 0, 0, 0, 1])
      (longestZeroRun (bytesToHextets
        [32, 1, 13, 184, 0, 0, 0, 0, 0, 0, 0, 0, 0, 0, 0, 1])).1
      (longestZeroRun (bytesToHextets
        [32, 1, 13, 184, 0, 0, 0, 0, 0, 0, 0, 0, 0, 0, 0, 1])).2 :=
  (c5_canonical_text.2.2
    ⟨Tag.V6, [32, 1, 13, 184, 0, 0, 0, 0, 0, 0, 0, 0, 0, 0, 0, 1]⟩ rfl).1

/-- Witness for `c3_invalid_length` at a concrete 3-byte input. -/
theorem c3_invalid_length_witness :
    fromBytes Tag.V4 [9, 9, 9] = Except.error AddrError.InvalidLength :=
  (c3_invalid_length.1 Tag.V4 [9, 9, 9]).mpr (by decide)
